import Mathlib

/-!
Shallow embedding of the minhash_dedupe repository (src/src/rensa.rs and
src/src/main.rs) and verification of its specification claims.

Modelling conventions:
* Machine integers (`u32`, `u64`, `usize`) are `Nat` with explicit `% 2^64`
  where the source uses wrapping arithmetic.
* The external crates `rustc_hash::FxHasher` (used by `calculate_hash` and
  `calculate_band_hash`) and `rand::StdRng` (used to draw the permutation
  coefficients) are not part of this repository; they appear as parameters:
  an item-hash function `ch : String → Nat`, a band-hash function
  `bh : List Nat → Nat`, and a coefficient stream `g : Nat → Nat × Nat`
  (two instances seeded identically yield the same stream, so "same seed"
  is rendered as "same `g`").
* Rust `f64` `threshold` is modelled as `ℚ`; it is stored but never read by
  the modelled operations.
* Fallible slicing (`&digest[start..end]`, which panics when out of bounds)
  returns `Option`.
-/

/-- Model of `fn permute_hash(hash: u64, a: u64, b: u64) -> u32`:
`((a.wrapping_mul(hash).wrapping_add(b)) >> 32) as u32`, rendered with
explicit `% 2^64` for the two wrapping operations and `/ 2^32` for the
right shift. -/
def permute_hash (hash a b : Nat) : Nat :=
  (((a * hash) % 2 ^ 64 + b) % 2 ^ 64) / 2 ^ 32

/-- Model of `struct RMinHash` from rensa.rs. -/
structure RMinHash where
  num_perm : Nat
  hash_values : List Nat
  permutations : List (Nat × Nat)
deriving Repr, DecidableEq

/-- Model of `RMinHash::new(num_perm, seed)`: the permutation coefficients are drawn
from the seeded generator, one pair per slot (`(0..num_perm).map(|_| (rng.gen(), rng.gen()))`),
modelled by the stream `g`; the signature starts as `vec![u32::MAX; num_perm]`. -/
def RMinHash.new (num_perm : Nat) (g : Nat → Nat × Nat) : RMinHash :=
  { num_perm := num_perm
    hash_values := List.replicate num_perm (2 ^ 32 - 1)
    permutations := (List.range num_perm).map g }

/-- The inner loop of `RMinHash::update` for a single item hash: for each
slot `i` with coefficients `(a, b)`,
`self.hash_values[i] = self.hash_values[i].min(permute_hash(item_hash, a, b))`.
The source walks `permutations` by index into `hash_values`; the two lists
always have equal length (`RMinHash::new` creates both with `num_perm`
elements and `update` preserves them), which `zipWith` renders exactly. -/
def RMinHash.updateItem (m : RMinHash) (item_hash : Nat) : RMinHash :=
  { m with
    hash_values :=
      List.zipWith (fun v ab => min v (permute_hash item_hash ab.1 ab.2))
        m.hash_values m.permutations }

/-- Model of `RMinHash::update(items)`: hash each item with the external hasher `ch`
(`calculate_hash`) and fold the per-item slot update over the item list. -/
def RMinHash.update (m : RMinHash) (ch : String → Nat) (items : List String) : RMinHash :=
  items.foldl (fun acc item => acc.updateItem (ch item)) m

/-- Model of `RMinHash::digest()`: returns a copy of the current hash values. -/
def RMinHash.digest (m : RMinHash) : List Nat :=
  m.hash_values

/-- Model of `RMinHash::jaccard(other)`: the number of positions where the two
signatures agree (`zip` + filter + count), divided by `self.num_perm`.
The source computes the ratio in `f64`; it is modelled in `ℚ`.  For
`num_perm ≥ 1` the two agree on the properties considered here (the ratio
`e/n` with `0 ≤ e ≤ n ≤ 2^53` is `1` exactly when `e = n` and IEEE division
keeps it inside `[0,1]`); for `num_perm = 0` the source yields `NaN`
(`0.0/0.0`) and the model yields `0` — both differ from `1`. -/
def RMinHash.jaccard (m other : RMinHash) : ℚ :=
  (((m.hash_values.zip other.hash_values).filter (fun p => p.1 = p.2)).length : ℚ)
    / (m.num_perm : ℚ)

-- ### Banded similarity index (RMinHashLSH)

/-- One LSH hash table, `HashMap<u64, Vec<usize>>`, as an association list.
The map is only ever used through keyed lookup (`get`) and keyed update
(`entry(..).or_insert_with(Vec::new).push(..)`), so an association list is
an exact model. -/
abbrev BandTable : Type := List (Nat × List Nat)

/-- Model of `table.get(&h)`. -/
def tableGet : BandTable → Nat → Option (List Nat)
  | [], _ => none
  | (h₂, ks) :: rest, h => if h₂ = h then some ks else tableGet rest h

/-- Model of `table.entry(h).or_insert_with(Vec::new).push(key)`: append `key` to the
bucket for `h`, creating the bucket when absent. -/
def tableInsert : BandTable → Nat → Nat → BandTable
  | [], h, key => [(h, [key])]
  | (h₂, ks) :: rest, h, key =>
    if h₂ = h then (h₂, ks ++ [key]) :: rest else (h₂, ks) :: tableInsert rest h key

/-- Model of `&digest[start..stop]`: panics (→ `none`) unless
`start ≤ stop ∧ stop ≤ digest.len()`. -/
def getSlice (digest : List Nat) (start stop : Nat) : Option (List Nat) :=
  if start ≤ stop ∧ stop ≤ digest.length then
    some ((digest.drop start).take (stop - start))
  else none

/-- The band-`i` slice of a digest, `digest[i*band_size .. (i+1)*band_size]`,
as a total function (used to state what `getSlice` returns when in bounds). -/
def bandOf (digest : List Nat) (band_size i : Nat) : List Nat :=
  (digest.drop (i * band_size)).take band_size

/-- Model of `struct RMinHashLSH` from rensa.rs. -/
structure RMinHashLSH where
  threshold : ℚ
  num_perm : Nat
  num_bands : Nat
  band_size : Nat
  hash_tables : List BandTable

/-- Model of `RMinHashLSH::new(threshold, num_perm, num_bands)`:
`band_size = num_perm / num_bands` (floor division) and one empty table per
band. (For `num_bands = 0` the Rust division panics at construction; the
model's `/ 0 = 0` is only ever used with `num_bands ≥ 1`, as in main.rs.) -/
def RMinHashLSH.new (threshold : ℚ) (num_perm num_bands : Nat) : RMinHashLSH :=
  { threshold := threshold
    num_perm := num_perm
    num_bands := num_bands
    band_size := num_perm / num_bands
    hash_tables := List.replicate num_bands [] }

/-- The banded loop of `RMinHashLSH::insert`: walk the tables with their
band index, slice the digest, hash the band with the external
`calculate_band_hash` (parameter `bh`) and append the key to the bucket. -/
def insertTables (bh : List Nat → Nat) (digest : List Nat) (band_size key : Nat) :
    Nat → List BandTable → Option (List BandTable)
  | _, [] => some []
  | i, t :: ts =>
    match getSlice digest (i * band_size) (i * band_size + band_size) with
    | none => none
    | some band =>
      match insertTables bh digest band_size key (i + 1) ts with
      | none => none
      | some ts₂ => some (tableInsert t (bh band) key :: ts₂)

/-- Model of `RMinHashLSH::insert(key, minhash)`. -/
def RMinHashLSH.insert (lsh : RMinHashLSH) (bh : List Nat → Nat) (key : Nat)
    (minhash : RMinHash) : Option RMinHashLSH :=
  match insertTables bh minhash.digest lsh.band_size key 0 lsh.hash_tables with
  | none => none
  | some ts => some { lsh with hash_tables := ts }

/-- The banded loop of `RMinHashLSH::query`: collect the bucket contents of
every band's hash, in band order (`candidates.extend(keys)`). -/
def queryTables (bh : List Nat → Nat) (digest : List Nat) (band_size : Nat) :
    Nat → List BandTable → Option (List Nat)
  | _, [] => some []
  | i, t :: ts =>
    match getSlice digest (i * band_size) (i * band_size + band_size) with
    | none => none
    | some band =>
      match queryTables bh digest band_size (i + 1) ts with
      | none => none
      | some rest =>
        some ((match tableGet t (bh band) with | some ks => ks | none => []) ++ rest)

/-- Model of `Vec::dedup()`: remove consecutive duplicate elements. -/
def dedupAdjacent : List Nat → List Nat
  | [] => []
  | [a] => [a]
  | a :: b :: rest =>
    if a = b then dedupAdjacent (b :: rest) else a :: dedupAdjacent (b :: rest)

/-- Model of `RMinHashLSH::query(minhash)`: collected candidates, then
`sort_unstable()` and `dedup()`. `sort_unstable` on `usize` is modelled by
insertion sort: both return the unique `≤`-sorted rearrangement of the
candidate list, so they agree extensionally. -/
def RMinHashLSH.query (lsh : RMinHashLSH) (bh : List Nat → Nat)
    (minhash : RMinHash) : Option (List Nat) :=
  match queryTables bh minhash.digest lsh.band_size 0 lsh.hash_tables with
  | none => none
  | some cands => some (dedupAdjacent (cands.insertionSort (· ≤ ·)))

/-- The banded loop of `RMinHashLSH::any_matches`: scan bands in ascending
order and return the first bucket whose band hash has an entry
(`return Some(keys)`), `none` after scanning all bands. The outer `Option`
is the panic layer of the slicing, the inner one is the source's return
value. -/
def anyMatchesTables (bh : List Nat → Nat) (digest : List Nat) (band_size : Nat) :
    Nat → List BandTable → Option (Option (List Nat))
  | _, [] => some none
  | i, t :: ts =>
    match getSlice digest (i * band_size) (i * band_size + band_size) with
    | none => none
    | some band =>
      match tableGet t (bh band) with
      | some ks => some (some ks)
      | none => anyMatchesTables bh digest band_size (i + 1) ts

/-- Model of `RMinHashLSH::any_matches(minhash)`. -/
def RMinHashLSH.any_matches (lsh : RMinHashLSH) (bh : List Nat → Nat)
    (minhash : RMinHash) : Option (Option (List Nat)) :=
  anyMatchesTables bh minhash.digest lsh.band_size 0 lsh.hash_tables

-- ### Dedup coordinator (main.rs)

/-- The shared state of main.rs: the index behind the `RwLock` and the
`accepted` counter. -/
structure DedupState where
  lsh : RMinHashLSH
  accepted : Nat

/-- One record's critical section in main.rs (lines 95–111): while holding
the exclusive write lock, evaluate `any_matches`; on a match drop the
record; otherwise take the key from `accepted.fetch_add(1)` and `insert` —
all before the lock is released, so a whole run under any thread
interleaving is this step folded over the serialization order of the
records. `none` models a panic (out-of-bounds band slice). The returned
trace records, for each accepted record, its key, its signature and the
index state against which its `any_matches` check ran. -/
def dedupRun (bh : List Nat → Nat) :
    DedupState → List RMinHash → Option (DedupState × List (Nat × RMinHash × RMinHashLSH))
  | st, [] => some (st, [])
  | st, m :: ms =>
    match st.lsh.any_matches bh m with
    | none => none
    | some (some _) => dedupRun bh st ms
    | some none =>
      match st.lsh.insert bh st.accepted m with
      | none => none
      | some lsh₂ =>
        match dedupRun bh ⟨lsh₂, st.accepted + 1⟩ ms with
        | none => none
        | some (st₂, tr) => some (st₂, (st.accepted, m, st.lsh) :: tr)

-- ### Basic lemmas about the signature generator

theorem zipWith_zipWith_same {α β γ δ : Type} (f : γ → β → δ) (g : α → β → γ) :
    ∀ (l₁ : List α) (l₂ : List β),
      List.zipWith f (List.zipWith g l₁ l₂) l₂ =
        List.zipWith (fun a b => f (g a b) b) l₁ l₂ := by
  intro l₁
  induction l₁ with
  | nil => intro l₂; simp
  | cons a t ih =>
    intro l₂
    cases l₂ with
    | nil => simp
    | cons b t₂ => simp [ih]

theorem updateItem_comm (m : RMinHash) (h₁ h₂ : Nat) :
    (m.updateItem h₁).updateItem h₂ = (m.updateItem h₂).updateItem h₁ := by
  simp only [RMinHash.updateItem, zipWith_zipWith_same]
  have hf : (fun (v : Nat) (ab : Nat × Nat) =>
      min (min v (permute_hash h₁ ab.1 ab.2)) (permute_hash h₂ ab.1 ab.2)) =
      (fun (v : Nat) (ab : Nat × Nat) =>
      min (min v (permute_hash h₂ ab.1 ab.2)) (permute_hash h₁ ab.1 ab.2)) := by
    funext v ab
    exact min_right_comm v _ _
  rw [hf]

theorem updateItem_idem (m : RMinHash) (h : Nat) :
    (m.updateItem h).updateItem h = m.updateItem h := by
  simp only [RMinHash.updateItem, zipWith_zipWith_same]
  have hf : (fun (v : Nat) (ab : Nat × Nat) =>
      min (min v (permute_hash h ab.1 ab.2)) (permute_hash h ab.1 ab.2)) =
      (fun (v : Nat) (ab : Nat × Nat) => min v (permute_hash h ab.1 ab.2)) := by
    funext v ab
    rw [min_assoc, min_self]
  rw [hf]

theorem update_foldl_pull (ch : String → Nat) (t : String) :
    ∀ (l : List String) (m : RMinHash),
      l.foldl (fun acc item => acc.updateItem (ch item)) (m.updateItem (ch t)) =
        (l.foldl (fun acc item => acc.updateItem (ch item)) m).updateItem (ch t) := by
  intro l
  induction l with
  | nil => intro m; rfl
  | cons a rest ih =>
    intro m
    simp only [List.foldl_cons]
    rw [updateItem_comm m (ch t) (ch a), ih]

theorem update_absorb_mem (ch : String → Nat) (t : String) :
    ∀ (l : List String) (m : RMinHash), t ∈ l →
      (l.foldl (fun acc item => acc.updateItem (ch item)) m).updateItem (ch t) =
        l.foldl (fun acc item => acc.updateItem (ch item)) m := by
  intro l
  induction l with
  | nil => intro m hmem; cases hmem
  | cons a rest ih =>
    intro m hmem
    simp only [List.foldl_cons]
    rcases List.mem_cons.mp hmem with h | h
    · subst h
      rw [update_foldl_pull]
      exact updateItem_idem _ _
    · exact ih (m.updateItem (ch a)) h

theorem update_eq_update_dedup (ch : String → Nat) :
    ∀ (l : List String) (m : RMinHash),
      RMinHash.update m ch l = RMinHash.update m ch l.dedup := by
  intro l
  induction l with
  | nil => intro m; rfl
  | cons a rest ih =>
    intro m
    by_cases hmem : a ∈ rest
    · rw [List.dedup_cons_of_mem hmem]
      show (a :: rest).foldl (fun acc item => acc.updateItem (ch item)) m =
        RMinHash.update m ch rest.dedup
      simp only [List.foldl_cons]
      rw [update_foldl_pull, update_absorb_mem ch a rest m hmem]
      exact ih m
    · rw [List.dedup_cons_of_not_mem hmem]
      show (a :: rest).foldl (fun acc item => acc.updateItem (ch item)) m =
        (a :: rest.dedup).foldl (fun acc item => acc.updateItem (ch item)) m
      simp only [List.foldl_cons]
      exact ih (m.updateItem (ch a))

theorem updateItem_getD (m : RMinHash) (hsh : Nat) (i : Nat)
    (hwf : m.hash_values.length = m.permutations.length)
    (hi : i < m.hash_values.length) :
    (m.updateItem hsh).hash_values.getD i 0 =
      min (m.hash_values.getD i 0)
        (permute_hash hsh (m.permutations.getD i (0, 0)).1 (m.permutations.getD i (0, 0)).2) := by
  have hi₂ : i < m.permutations.length := hwf ▸ hi
  simp only [RMinHash.updateItem]
  rw [List.getD_eq_getElem?_getD, List.getD_eq_getElem?_getD, List.getD_eq_getElem?_getD,
    List.getElem?_zipWith', List.getElem?_eq_getElem hi, List.getElem?_eq_getElem hi₂]
  simp

theorem zipWith_min_getD_le :
    ∀ (l : List Nat) (ps : List (Nat × Nat)) (i : Nat) (f : Nat × Nat → Nat),
      (List.zipWith (fun v ab => min v (f ab)) l ps).getD i 0 ≤ l.getD i 0 := by
  intro l
  induction l with
  | nil => intro ps i f; simp
  | cons a t ih =>
    intro ps i f
    cases ps with
    | nil => simp
    | cons p pt =>
      cases i with
      | zero => exact min_le_left a (f p)
      | succ j => simpa using ih pt j f

theorem updateItem_getD_le (m : RMinHash) (hsh i : Nat) :
    (m.updateItem hsh).hash_values.getD i 0 ≤ m.hash_values.getD i 0 :=
  zipWith_min_getD_le m.hash_values m.permutations i
    (fun ab => permute_hash hsh ab.1 ab.2)

theorem update_getD_le (ch : String → Nat) :
    ∀ (items : List String) (m : RMinHash) (i : Nat),
      (m.update ch items).hash_values.getD i 0 ≤ m.hash_values.getD i 0 := by
  intro items
  induction items with
  | nil => intro m i; exact le_refl _
  | cons a t ih =>
    intro m i
    have h₁ : m.update ch (a :: t) = (m.updateItem (ch a)).update ch t := rfl
    rw [h₁]
    exact le_trans (ih (m.updateItem (ch a)) i) (updateItem_getD_le m (ch a) i)

theorem zip_self_filter_eq_length :
    ∀ (l : List Nat), ((l.zip l).filter (fun p => p.1 = p.2)).length = l.length := by
  intro l
  induction l with
  | nil => rfl
  | cons a t ih => simpa using ih

/-- C4: the digest produced by `RMinHash::update` depends only on the set of
tokens supplied, not on their order or multiplicity: two fresh instances
built with the same `num_perm` and seed (hence the same coefficient stream
`g`), updated with item lists having the same members, yield identical
digests. -/
theorem c4_update_set_invariant (n : Nat) (g : Nat → Nat × Nat) (ch : String → Nat)
    (items₁ items₂ : List String) (hmem : ∀ t, t ∈ items₁ ↔ t ∈ items₂) :
    ((RMinHash.new n g).update ch items₁).digest =
      ((RMinHash.new n g).update ch items₂).digest := by
  have hperm : items₁.dedup.Perm items₂.dedup := by
    refine (List.perm_ext_iff_of_nodup (List.nodup_dedup _) (List.nodup_dedup _)).2 ?_
    intro a
    simp only [List.mem_dedup]
    exact hmem a
  have hfold : items₁.dedup.foldl (fun acc item => acc.updateItem (ch item)) (RMinHash.new n g) =
      items₂.dedup.foldl (fun acc item => acc.updateItem (ch item)) (RMinHash.new n g) :=
    hperm.foldl_eq' (fun x _hx y _hy z => updateItem_comm z (ch x) (ch y)) (RMinHash.new n g)
  unfold RMinHash.digest
  rw [update_eq_update_dedup ch items₁, update_eq_update_dedup ch items₂]
  exact congrArg RMinHash.hash_values hfold

/-- C4 witness: updating with ["a","b"] versus ["b","a"] yields identical
digests. -/
theorem c4_witness :
    ((RMinHash.new 2 (fun _ => (1, 1))).update (fun s => s.length) ["a", "b"]).digest =
      ((RMinHash.new 2 (fun _ => (1, 1))).update (fun s => s.length) ["b", "a"]).digest :=
  c4_update_set_invariant 2 (fun _ => (1, 1)) (fun s => s.length) ["a", "b"] ["b", "a"]
    (by intro t; simp only [List.mem_cons, List.not_mem_nil]; tauto)

/-- C5: the candidate for slot `i` with coefficients `(a,b)` equals the high
32 bits of `(a * token_hash + b) mod 2^64` (wrapping 64-bit arithmetic) and
fits in a `u32`; slots start at the sentinel `u32::MAX = 2^32 - 1`; a single
item update replaces slot `i` by `min(slot[i], candidate)`; and slots are
non-increasing across whole `update` calls. -/
theorem c5_update_running_min (n : Nat) (g : Nat → Nat × Nat) (hsh a b : Nat)
    (m : RMinHash) (hwf : m.hash_values.length = m.permutations.length)
    (i : Nat) (ch : String → Nat) (items : List String) :
    (permute_hash hsh a b = ((a * hsh + b) % 2 ^ 64) / 2 ^ 32 ∧ permute_hash hsh a b < 2 ^ 32)
    ∧ (RMinHash.new n g).hash_values = List.replicate n (2 ^ 32 - 1)
    ∧ (i < m.hash_values.length →
        (m.updateItem hsh).hash_values.getD i 0 =
          min (m.hash_values.getD i 0)
            (permute_hash hsh (m.permutations.getD i (0, 0)).1
              (m.permutations.getD i (0, 0)).2))
    ∧ (m.update ch items).hash_values.getD i 0 ≤ m.hash_values.getD i 0 := by
  refine ⟨⟨?_, ?_⟩, rfl, fun hi => updateItem_getD m hsh i hwf hi, update_getD_le ch items m i⟩
  · unfold permute_hash
    generalize a * hsh = x
    omega
  · unfold permute_hash
    generalize a * hsh = x
    omega

/-- C5 witness at a concrete instance. -/
theorem c5_witness :
    (permute_hash 0 0 0 = ((0 * 0 + 0) % 2 ^ 64) / 2 ^ 32 ∧ permute_hash 0 0 0 < 2 ^ 32)
    ∧ (RMinHash.new 1 (fun _ => (0, 0))).hash_values = List.replicate 1 (2 ^ 32 - 1)
    ∧ (0 < (RMinHash.new 1 (fun _ => (0, 0))).hash_values.length →
        ((RMinHash.new 1 (fun _ => (0, 0))).updateItem 0).hash_values.getD 0 0 =
          min ((RMinHash.new 1 (fun _ => (0, 0))).hash_values.getD 0 0)
            (permute_hash 0 ((RMinHash.new 1 (fun _ => (0, 0))).permutations.getD 0 (0, 0)).1
              ((RMinHash.new 1 (fun _ => (0, 0))).permutations.getD 0 (0, 0)).2))
    ∧ ((RMinHash.new 1 (fun _ => (0, 0))).update (fun _ => 0) []).hash_values.getD 0 0 ≤
        (RMinHash.new 1 (fun _ => (0, 0))).hash_values.getD 0 0 :=
  c5_update_running_min 1 (fun _ => (0, 0)) 0 0 0 (RMinHash.new 1 (fun _ => (0, 0))) rfl 0
    (fun _ => 0) []

/-- C6 counterexample: for `num_perm = 0` (an admissible construction in the
source, where `jaccard` computes `0.0 / 0.0 = NaN ≠ 1`; in the rational
model `0 / 0 = 0 ≠ 1`), `jaccard(A, A) = 1` fails. -/
theorem c6_counterexample :
    ¬ ((RMinHash.new 0 (fun _ => (0, 0))).jaccard (RMinHash.new 0 (fun _ => (0, 0))) = 1) := by
  norm_num [RMinHash.jaccard, RMinHash.new]

/-- C6 (amended with `num_perm ≥ 1`, as forced by the counterexample):
for a well-formed signature, `jaccard(A, A) = 1` and `jaccard(A, B) ∈ [0, 1]`. -/
theorem c6_jaccard_bounds (m₁ m₂ : RMinHash)
    (hwf : m₁.hash_values.length = m₁.num_perm) (hP : 1 ≤ m₁.num_perm) :
    m₁.jaccard m₁ = 1 ∧ 0 ≤ m₁.jaccard m₂ ∧ m₁.jaccard m₂ ≤ 1 := by
  have hn : (0 : ℚ) < (m₁.num_perm : ℚ) := by
    exact_mod_cast Nat.lt_of_lt_of_le Nat.zero_lt_one hP
  refine ⟨?_, ?_, ?_⟩
  · unfold RMinHash.jaccard
    rw [zip_self_filter_eq_length, hwf]
    exact div_self (ne_of_gt hn)
  · unfold RMinHash.jaccard
    exact div_nonneg (by positivity) (le_of_lt hn)
  · unfold RMinHash.jaccard
    rw [div_le_one hn]
    have hle : ((m₁.hash_values.zip m₂.hash_values).filter
        (fun p => p.1 = p.2)).length ≤ m₁.num_perm := by
      calc ((m₁.hash_values.zip m₂.hash_values).filter (fun p => p.1 = p.2)).length
          ≤ (m₁.hash_values.zip m₂.hash_values).length := List.length_filter_le _ _
        _ ≤ m₁.hash_values.length := by rw [List.length_zip]; exact min_le_left _ _
        _ = m₁.num_perm := hwf
    exact_mod_cast hle

/-- C6 witness at a concrete instance with `num_perm = 1`. -/
theorem c6_witness :
    (RMinHash.new 1 (fun _ => (0, 0))).jaccard (RMinHash.new 1 (fun _ => (0, 0))) = 1
    ∧ 0 ≤ (RMinHash.new 1 (fun _ => (0, 0))).jaccard (RMinHash.new 1 (fun _ => (0, 0)))
    ∧ (RMinHash.new 1 (fun _ => (0, 0))).jaccard (RMinHash.new 1 (fun _ => (0, 0))) ≤ 1 :=
  c6_jaccard_bounds (RMinHash.new 1 (fun _ => (0, 0))) (RMinHash.new 1 (fun _ => (0, 0)))
    rfl (le_refl 1)

-- ### Lemmas about tables and slices

theorem tableGet_mem : ∀ (t : BandTable) (h : Nat) (ks : List Nat),
    tableGet t h = some ks → (h, ks) ∈ t := by
  intro t
  induction t with
  | nil => intro h ks hget; cases hget
  | cons p rest ih =>
    intro h ks hget
    cases p with
    | mk ph pks =>
      unfold tableGet at hget
      by_cases heq : ph = h
      · rw [if_pos heq] at hget
        injection hget with hks
        subst hks
        subst heq
        exact List.mem_cons_self _ _
      · rw [if_neg heq] at hget
        exact List.mem_cons_of_mem _ (ih h ks hget)

theorem tableGet_tableInsert_self : ∀ (t : BandTable) (h key : Nat),
    ∃ ks, tableGet (tableInsert t h key) h = some ks ∧ key ∈ ks := by
  intro t
  induction t with
  | nil => intro h key; exact ⟨[key], by simp [tableInsert, tableGet], by simp⟩
  | cons p rest ih =>
    intro h key
    cases p with
    | mk ph pks =>
      by_cases heq : ph = h
      · subst heq
        refine ⟨pks ++ [key], ?_, by simp⟩
        simp [tableInsert, tableGet]
      · obtain ⟨ks, hget, hmem⟩ := ih h key
        refine ⟨ks, ?_, hmem⟩
        simp only [tableInsert, if_neg heq, tableGet]
        exact hget

theorem tableGet_tableInsert_isSome : ∀ (t : BandTable) (h h₂ key : Nat),
    (tableGet t h).isSome → (tableGet (tableInsert t h₂ key) h).isSome := by
  intro t
  induction t with
  | nil => intro h h₂ key hs; simp [tableGet] at hs
  | cons p rest ih =>
    intro h h₂ key hs
    cases p with
    | mk ph pks =>
      by_cases heq₂ : ph = h₂
      · simp only [tableInsert, if_pos heq₂]
        by_cases heq : ph = h
        · simp [tableGet, if_pos heq]
        · simp only [tableGet, if_neg heq] at hs ⊢
          exact hs
      · simp only [tableInsert, if_neg heq₂]
        by_cases heq : ph = h
        · simp [tableGet, if_pos heq]
        · simp only [tableGet, if_neg heq] at hs ⊢
          exact ih h h₂ key hs

theorem getSlice_eq_bandOf (d : List Nat) (bs i : Nat) (h : i * bs + bs ≤ d.length) :
    getSlice d (i * bs) (i * bs + bs) = some (bandOf d bs i) := by
  unfold getSlice bandOf
  rw [if_pos ⟨Nat.le_add_right _ _, h⟩, Nat.add_sub_cancel_left]

theorem getSlice_band_none (d : List Nat) (bs i : Nat) (h : d.length < i * bs + bs) :
    getSlice d (i * bs) (i * bs + bs) = none := by
  unfold getSlice
  rw [if_neg]
  intro hc
  omega

theorem anyMatchesTables_none_iff (bh : List Nat → Nat) (d : List Nat) (bs : Nat) :
    ∀ (ts : List BandTable) (i : Nat),
      anyMatchesTables bh d bs i ts = some none ↔
        ∀ j, j < ts.length →
          (i + j) * bs + bs ≤ d.length ∧
            tableGet (ts.getD j []) (bh (bandOf d bs (i + j))) = none := by
  intro ts
  induction ts with
  | nil => intro i; simp [anyMatchesTables]
  | cons t rest ih =>
    intro i
    by_cases hlen : i * bs + bs ≤ d.length
    · have hslice := getSlice_eq_bandOf d bs i hlen
      cases hget : tableGet t (bh (bandOf d bs i)) with
      | some ks =>
        have hlhs : anyMatchesTables bh d bs i (t :: rest) = some (some ks) := by
          simp [anyMatchesTables, hslice, hget]
        rw [hlhs]
        constructor
        · intro hc; simp at hc
        · intro hall
          have h₀ := (hall 0 (by simp)).2
          simp only [Nat.add_zero, List.getD_cons_zero] at h₀
          rw [hget] at h₀
          cases h₀
      | none =>
        have hlhs : anyMatchesTables bh d bs i (t :: rest) =
            anyMatchesTables bh d bs (i + 1) rest := by
          simp [anyMatchesTables, hslice, hget]
        rw [hlhs, ih (i + 1)]
        constructor
        · intro hall j hj
          cases j with
          | zero =>
            constructor
            · simpa using hlen
            · simpa using hget
          | succ j₂ =>
            have hstep := hall j₂ (by simpa using hj)
            have harith : i + 1 + j₂ = i + (j₂ + 1) := by omega
            rw [harith] at hstep
            simpa using hstep
        · intro hall j hj
          have hstep := hall (j + 1) (by simpa using hj)
          have harith : i + (j + 1) = i + 1 + j := by omega
          rw [harith] at hstep
          simpa using hstep
    · have hslice := getSlice_band_none d bs i (by omega)
      have hlhs : anyMatchesTables bh d bs i (t :: rest) = none := by
        simp [anyMatchesTables, hslice]
      rw [hlhs]
      constructor
      · intro hc; cases hc
      · intro hall
        exact absurd (by simpa using (hall 0 (by simp)).1) hlen

theorem getSlice_some_inv (d : List Nat) (bs i : Nat) (band : List Nat)
    (h : getSlice d (i * bs) (i * bs + bs) = some band) :
    i * bs + bs ≤ d.length ∧ band = bandOf d bs i := by
  by_cases hlen : i * bs + bs ≤ d.length
  · rw [getSlice_eq_bandOf d bs i hlen] at h
    injection h with h₂
    exact ⟨hlen, h₂.symm⟩
  · rw [getSlice_band_none d bs i (by omega)] at h
    cases h

theorem anyMatchesTables_some_iff (bh : List Nat → Nat) (d : List Nat) (bs : Nat) :
    ∀ (ts : List BandTable) (i : Nat) (ks : List Nat),
      anyMatchesTables bh d bs i ts = some (some ks) ↔
        ∃ j, j < ts.length ∧ (i + j) * bs + bs ≤ d.length ∧
          tableGet (ts.getD j []) (bh (bandOf d bs (i + j))) = some ks ∧
          ∀ j₂, j₂ < j →
            tableGet (ts.getD j₂ []) (bh (bandOf d bs (i + j₂))) = none := by
  intro ts
  induction ts with
  | nil => intro i ks; simp [anyMatchesTables]
  | cons t rest ih =>
    intro i ks
    by_cases hlen : i * bs + bs ≤ d.length
    · have hslice := getSlice_eq_bandOf d bs i hlen
      cases hget : tableGet t (bh (bandOf d bs i)) with
      | some ks₀ =>
        have hlhs : anyMatchesTables bh d bs i (t :: rest) = some (some ks₀) := by
          simp [anyMatchesTables, hslice, hget]
        rw [hlhs]
        constructor
        · intro hc
          injection hc with hc₂
          injection hc₂ with hc₃
          refine ⟨0, by simp, by simpa using hlen, ?_, fun j₂ hj₂ => absurd hj₂ (Nat.not_lt_zero _)⟩
          simpa [hc₃] using hget
        · rintro ⟨j, hj, _hb, hgetj, hprev⟩
          cases j with
          | zero =>
            simp only [Nat.add_zero, List.getD_cons_zero] at hgetj
            rw [hget] at hgetj
            injection hgetj with hks
            rw [hks]
          | succ j₂ =>
            have h₀ := hprev 0 (Nat.succ_pos _)
            simp only [Nat.add_zero, List.getD_cons_zero] at h₀
            rw [hget] at h₀
            cases h₀
      | none =>
        have hlhs : anyMatchesTables bh d bs i (t :: rest) =
            anyMatchesTables bh d bs (i + 1) rest := by
          simp [anyMatchesTables, hslice, hget]
        rw [hlhs, ih (i + 1) ks]
        constructor
        · rintro ⟨j, hj, hb, hgetj, hprev⟩
          refine ⟨j + 1, by simpa using hj, ?_, ?_, ?_⟩
          · have harith : i + (j + 1) = i + 1 + j := by omega
            rw [harith]
            exact hb
          · have harith : i + (j + 1) = i + 1 + j := by omega
            rw [harith]
            simpa using hgetj
          · intro j₂ hj₂
            cases j₂ with
            | zero => simpa using hget
            | succ j₃ =>
              have hstep := hprev j₃ (by omega)
              have harith : i + (j₃ + 1) = i + 1 + j₃ := by omega
              rw [harith]
              simpa using hstep
        · rintro ⟨j, hj, hb, hgetj, hprev⟩
          cases j with
          | zero =>
            simp only [Nat.add_zero, List.getD_cons_zero] at hgetj
            rw [hget] at hgetj
            cases hgetj
          | succ j₂ =>
            refine ⟨j₂, by simpa using hj, ?_, ?_, ?_⟩
            · have harith : i + 1 + j₂ = i + (j₂ + 1) := by omega
              rw [harith]
              exact hb
            · have harith : i + 1 + j₂ = i + (j₂ + 1) := by omega
              rw [harith]
              simpa using hgetj
            · intro j₃ hj₃
              have hstep := hprev (j₃ + 1) (by omega)
              have harith : i + 1 + j₃ = i + (j₃ + 1) := by omega
              rw [harith]
              simpa using hstep
    · have hslice := getSlice_band_none d bs i (by omega)
      have hlhs : anyMatchesTables bh d bs i (t :: rest) = none := by
        simp [anyMatchesTables, hslice]
      rw [hlhs]
      constructor
      · intro hc; cases hc
      · rintro ⟨j, hj, hb, _⟩
        have hmono : i * bs ≤ (i + j) * bs := Nat.mul_le_mul_right bs (by omega)
        omega

theorem anyMatchesTables_isSome (bh : List Nat → Nat) (d : List Nat) (bs : Nat) :
    ∀ (ts : List BandTable) (i : Nat),
      (∀ j, j < ts.length → (i + j) * bs + bs ≤ d.length) →
        (anyMatchesTables bh d bs i ts).isSome := by
  intro ts
  induction ts with
  | nil => intro i _; simp [anyMatchesTables]
  | cons t rest ih =>
    intro i hb
    have hlen : i * bs + bs ≤ d.length := by simpa using hb 0 (by simp)
    have hslice := getSlice_eq_bandOf d bs i hlen
    cases hget : tableGet t (bh (bandOf d bs i)) with
    | some ks => simp [anyMatchesTables, hslice, hget]
    | none =>
      have hrec := ih (i + 1) (fun j hj => by
        have hstep := hb (j + 1) (by simpa using hj)
        have harith : i + (j + 1) = i + 1 + j := by omega
        rw [harith] at hstep
        exact hstep)
      simpa [anyMatchesTables, hslice, hget] using hrec

theorem insertTables_isSome_iff (bh : List Nat → Nat) (d : List Nat) (bs key : Nat) :
    ∀ (ts : List BandTable) (i : Nat),
      (insertTables bh d bs key i ts).isSome ↔
        ∀ j, j < ts.length → (i + j) * bs + bs ≤ d.length := by
  intro ts
  induction ts with
  | nil => intro i; simp [insertTables]
  | cons t rest ih =>
    intro i
    by_cases hlen : i * bs + bs ≤ d.length
    · have hslice := getSlice_eq_bandOf d bs i hlen
      have hstep : (insertTables bh d bs key i (t :: rest)).isSome =
          (insertTables bh d bs key (i + 1) rest).isSome := by
        simp only [insertTables, hslice]
        cases insertTables bh d bs key (i + 1) rest with
        | none => simp
        | some ts₂ => simp
      rw [Bool.eq_iff_iff] at hstep
      rw [hstep, ih (i + 1)]
      constructor
      · intro hall j hj
        cases j with
        | zero => simpa using hlen
        | succ j₂ =>
          have hstep₂ := hall j₂ (by simpa using hj)
          have harith : i + 1 + j₂ = i + (j₂ + 1) := by omega
          rw [harith] at hstep₂
          exact hstep₂
      · intro hall j hj
        have hstep₂ := hall (j + 1) (by simpa using hj)
        have harith : i + (j + 1) = i + 1 + j := by omega
        rw [harith] at hstep₂
        exact hstep₂
    · have hslice := getSlice_band_none d bs i (by omega)
      constructor
      · intro hc
        rw [insertTables] at hc
        rw [hslice] at hc
        simp at hc
      · intro hall
        exact absurd (by simpa using hall 0 (by simp)) hlen

theorem insertTables_spec (bh : List Nat → Nat) (d : List Nat) (bs key : Nat) :
    ∀ (ts : List BandTable) (i : Nat) (ts₂ : List BandTable),
      insertTables bh d bs key i ts = some ts₂ →
        ts₂.length = ts.length ∧
          ∀ j, j < ts.length →
            ts₂.getD j [] =
              tableInsert (ts.getD j []) (bh (bandOf d bs (i + j))) key := by
  intro ts
  induction ts with
  | nil =>
    intro i ts₂ hins
    rw [insertTables] at hins
    injection hins with h₂
    subst h₂
    exact ⟨rfl, fun j hj => absurd hj (Nat.not_lt_zero _)⟩
  | cons t rest ih =>
    intro i ts₂ hins
    rw [insertTables] at hins
    cases hslice : getSlice d (i * bs) (i * bs + bs) with
    | none => rw [hslice] at hins; cases hins
    | some band =>
      rw [hslice] at hins
      obtain ⟨hlen, hband⟩ := getSlice_some_inv d bs i band hslice
      cases hrec : insertTables bh d bs key (i + 1) rest with
      | none => rw [hrec] at hins; cases hins
      | some ts₃ =>
        rw [hrec] at hins
        injection hins with h₂
        subst h₂
        obtain ⟨hlen₃, hspec₃⟩ := ih (i + 1) ts₃ hrec
        refine ⟨by simpa using hlen₃, ?_⟩
        intro j hj
        cases j with
        | zero =>
          simp only [Nat.add_zero, List.getD_cons_zero]
          rw [hband]
        | succ j₂ =>
          have hstep := hspec₃ j₂ (by simpa using hj)
          have harith : i + 1 + j₂ = i + (j₂ + 1) := by omega
          rw [harith] at hstep
          simpa using hstep

theorem queryTables_isSome_iff (bh : List Nat → Nat) (d : List Nat) (bs : Nat) :
    ∀ (ts : List BandTable) (i : Nat),
      (queryTables bh d bs i ts).isSome ↔
        ∀ j, j < ts.length → (i + j) * bs + bs ≤ d.length := by
  intro ts
  induction ts with
  | nil => intro i; simp [queryTables]
  | cons t rest ih =>
    intro i
    by_cases hlen : i * bs + bs ≤ d.length
    · have hslice := getSlice_eq_bandOf d bs i hlen
      have hstep : (queryTables bh d bs i (t :: rest)).isSome =
          (queryTables bh d bs (i + 1) rest).isSome := by
        simp only [queryTables, hslice]
        cases queryTables bh d bs (i + 1) rest with
        | none => simp
        | some cs => simp
      rw [Bool.eq_iff_iff] at hstep
      rw [hstep, ih (i + 1)]
      constructor
      · intro hall j hj
        cases j with
        | zero => simpa using hlen
        | succ j₂ =>
          have hstep₂ := hall j₂ (by simpa using hj)
          have harith : i + 1 + j₂ = i + (j₂ + 1) := by omega
          rw [harith] at hstep₂
          exact hstep₂
      · intro hall j hj
        have hstep₂ := hall (j + 1) (by simpa using hj)
        have harith : i + (j + 1) = i + 1 + j := by omega
        rw [harith] at hstep₂
        exact hstep₂
    · have hslice := getSlice_band_none d bs i (by omega)
      constructor
      · intro hc
        rw [queryTables] at hc
        rw [hslice] at hc
        simp at hc
      · intro hall
        exact absurd (by simpa using hall 0 (by simp)) hlen

theorem queryTables_mem (bh : List Nat → Nat) (d : List Nat) (bs : Nat) :
    ∀ (ts : List BandTable) (i : Nat) (cs : List Nat),
      queryTables bh d bs i ts = some cs →
        ∀ j, j < ts.length → ∀ ks,
          tableGet (ts.getD j []) (bh (bandOf d bs (i + j))) = some ks →
            ∀ x, x ∈ ks → x ∈ cs := by
  intro ts
  induction ts with
  | nil => intro i cs _ j hj; exact absurd hj (Nat.not_lt_zero _)
  | cons t rest ih =>
    intro i cs hq j hj ks hget x hx
    rw [queryTables] at hq
    cases hslice : getSlice d (i * bs) (i * bs + bs) with
    | none => rw [hslice] at hq; cases hq
    | some band =>
      rw [hslice] at hq
      obtain ⟨hlen, hband⟩ := getSlice_some_inv d bs i band hslice
      cases hrec : queryTables bh d bs (i + 1) rest with
      | none => rw [hrec] at hq; cases hq
      | some restcs =>
        rw [hrec] at hq
        injection hq with h₂
        subst h₂
        cases j with
        | zero =>
          simp only [Nat.add_zero, List.getD_cons_zero] at hget
          rw [hband, hget]
          exact List.mem_append_left _ hx
        | succ j₂ =>
          have hstep : x ∈ restcs := by
            have harith : i + (j₂ + 1) = i + 1 + j₂ := by omega
            rw [harith] at hget
            exact ih (i + 1) restcs hrec j₂ (by simpa using hj) ks
              (by simpa using hget) x hx
          exact List.mem_append_right _ hstep

-- ### dedupAdjacent and sorting lemmas

theorem dedupAdjacent_cons_cons (a b : Nat) (rest : List Nat) :
    dedupAdjacent (a :: b :: rest) =
      if a = b then dedupAdjacent (b :: rest) else a :: dedupAdjacent (b :: rest) := rfl

theorem mem_dedupAdjacent : ∀ (l : List Nat) (x : Nat), x ∈ dedupAdjacent l ↔ x ∈ l := by
  intro l
  induction l with
  | nil => intro x; exact Iff.rfl
  | cons a t ih =>
    intro x
    cases t with
    | nil => exact Iff.rfl
    | cons b rest =>
      rw [dedupAdjacent_cons_cons]
      by_cases hab : a = b
      · rw [if_pos hab, ih x]
        subst hab
        constructor
        · exact fun hx => List.mem_cons_of_mem a hx
        · intro hx
          rcases List.mem_cons.mp hx with h | h
          · subst h; exact List.mem_cons_self _ _
          · exact h
      · rw [if_neg hab]
        simp only [List.mem_cons]
        exact or_congr Iff.rfl (by rw [ih x]; simp [List.mem_cons])

theorem sorted_dedupAdjacent :
    ∀ (l : List Nat), l.Sorted (· ≤ ·) → (dedupAdjacent l).Sorted (· < ·) := by
  intro l
  induction l with
  | nil => intro _; exact List.sorted_nil
  | cons a t ih =>
    intro hs
    cases t with
    | nil => exact List.sorted_singleton a
    | cons b rest =>
      have hs₂ : (b :: rest).Sorted (· ≤ ·) := hs.of_cons
      have hab : a ≤ b := List.rel_of_sorted_cons hs b (List.mem_cons_self _ _)
      rw [dedupAdjacent_cons_cons]
      by_cases heq : a = b
      · rw [if_pos heq]
        exact ih hs₂
      · rw [if_neg heq]
        rw [List.sorted_cons]
        refine ⟨?_, ih hs₂⟩
        intro x hx
        have hxmem : x ∈ b :: rest := (mem_dedupAdjacent _ x).1 hx
        have hbx : b ≤ x := by
          rcases List.mem_cons.mp hxmem with h | h
          · subst h; exact le_refl x
          · exact List.rel_of_sorted_cons hs₂ x h
        exact lt_of_lt_of_le (lt_of_le_of_ne hab heq) hbx

theorem getD_replicate_nil :
    ∀ (n j : Nat), (List.replicate n ([] : BandTable)).getD j [] = [] := by
  intro n
  induction n with
  | zero => intro j; cases j <;> rfl
  | succ n₂ ih =>
    intro j
    cases j with
    | zero => rfl
    | succ j₂ => simp [List.replicate_succ, ih j₂]

-- ### Claim C2

/-- C2: `any_matches` scans bands in ascending index order and returns the
bucket of the first band whose band hash has an existing entry in that
band's table (conjuncts 1 and 2); the returned bucket is non-empty whenever
every bucket of the index is non-empty, which holds in every index state
reachable through `insert` (conjunct 3); and on an index into which nothing
has been inserted, `any_matches` returns no match for every signature that
covers the bands (conjunct 4). -/
theorem c2_any_matches_first_band (bh : List Nat → Nat) (lsh : RMinHashLSH)
    (m : RMinHash) (hwf : lsh.hash_tables.length = lsh.num_bands) :
    (∀ ks, lsh.any_matches bh m = some (some ks) ↔
      ∃ j, j < lsh.num_bands ∧
        j * lsh.band_size + lsh.band_size ≤ m.digest.length ∧
        tableGet (lsh.hash_tables.getD j []) (bh (bandOf m.digest lsh.band_size j)) = some ks ∧
        ∀ j₂, j₂ < j →
          tableGet (lsh.hash_tables.getD j₂ []) (bh (bandOf m.digest lsh.band_size j₂)) = none)
    ∧ (lsh.any_matches bh m = some none ↔
      ∀ j, j < lsh.num_bands →
        j * lsh.band_size + lsh.band_size ≤ m.digest.length ∧
          tableGet (lsh.hash_tables.getD j []) (bh (bandOf m.digest lsh.band_size j)) = none)
    ∧ (∀ ks, lsh.any_matches bh m = some (some ks) →
        (∀ tb, tb ∈ lsh.hash_tables → ∀ p, p ∈ tb → p.2 ≠ []) → ks ≠ [])
    ∧ (∀ (thr : ℚ) (np nb : Nat) (m₂ : RMinHash),
        nb * (np / nb) ≤ m₂.digest.length →
          (RMinHashLSH.new thr np nb).any_matches bh m₂ = some none) := by
  have hsome : ∀ ks, lsh.any_matches bh m = some (some ks) ↔
      ∃ j, j < lsh.num_bands ∧
        j * lsh.band_size + lsh.band_size ≤ m.digest.length ∧
        tableGet (lsh.hash_tables.getD j []) (bh (bandOf m.digest lsh.band_size j)) = some ks ∧
        ∀ j₂, j₂ < j →
          tableGet (lsh.hash_tables.getD j₂ []) (bh (bandOf m.digest lsh.band_size j₂)) = none := by
    intro ks
    have h₂ := anyMatchesTables_some_iff bh m.digest lsh.band_size lsh.hash_tables 0 ks
    simp only [Nat.zero_add, hwf] at h₂
    exact h₂
  refine ⟨hsome, ?_, ?_, ?_⟩
  · have h₂ := anyMatchesTables_none_iff bh m.digest lsh.band_size lsh.hash_tables 0
    simp only [Nat.zero_add, hwf] at h₂
    exact h₂
  · intro ks hmatch hne
    obtain ⟨j, hj, _hb, hget, _⟩ := (hsome ks).1 hmatch
    have hjlen : j < lsh.hash_tables.length := by omega
    have htb : lsh.hash_tables.getD j [] ∈ lsh.hash_tables := by
      rw [List.getD_eq_getElem _ _ hjlen]
      exact List.getElem_mem hjlen
    have hpair := tableGet_mem _ _ _ hget
    exact hne _ htb _ hpair
  · intro thr np nb m₂ hcov
    have h₂ := anyMatchesTables_none_iff bh m₂.digest (np / nb) (List.replicate nb []) 0
    have hgoal : anyMatchesTables bh m₂.digest (np / nb) 0 (List.replicate nb []) = some none := by
      rw [h₂]
      intro j hj
      have hjnb : j < nb := by simpa using hj
      constructor
      · have hmul : (j + 1) * (np / nb) ≤ nb * (np / nb) :=
          Nat.mul_le_mul_right _ (by omega)
        have harith : (0 + j) * (np / nb) + np / nb = (j + 1) * (np / nb) := by ring
        omega
      · rw [getD_replicate_nil]
        rfl
    exact hgoal

/-- C2 witness: on the freshly constructed index of main.rs scaled down
(threshold 7/10, 4 permutations, 2 bands), `any_matches` reports no match. -/
theorem c2_witness :
    (RMinHashLSH.new (7 / 10) 4 2).any_matches (fun l => l.length)
      (RMinHash.new 4 (fun _ => (0, 0))) = some none :=
  (c2_any_matches_first_band (fun l => l.length) (RMinHashLSH.new (7 / 10) 4 2)
      (RMinHash.new 4 (fun _ => (0, 0))) rfl).2.2.2 (7 / 10) 4 2
    (RMinHash.new 4 (fun _ => (0, 0))) (by decide)

-- ### Claim C3

theorem insert_eq (lsh : RMinHashLSH) (bh : List Nat → Nat) (k : Nat) (m : RMinHash)
    (ts₂ : List BandTable)
    (hins : insertTables bh m.digest lsh.band_size k 0 lsh.hash_tables = some ts₂) :
    lsh.insert bh k m = some { lsh with hash_tables := ts₂ } := by
  unfold RMinHashLSH.insert
  rw [hins]

theorem query_eq (lsh : RMinHashLSH) (bh : List Nat → Nat) (m : RMinHash) (cs : List Nat)
    (hq : queryTables bh m.digest lsh.band_size 0 lsh.hash_tables = some cs) :
    lsh.query bh m = some (dedupAdjacent (cs.insertionSort (· ≤ ·))) := by
  unfold RMinHashLSH.query
  rw [hq]

/-- C3: on an index with at least one band, whose signature covers all
bands, `insert(k, s)` followed by `query(s)` succeeds and yields a list that
contains `k`; the query result is strictly ascending, hence deduplicated
and in ascending key order. -/
theorem c3_insert_then_query_contains (bh : List Nat → Nat) (lsh : RMinHashLSH)
    (k : Nat) (m : RMinHash)
    (hwf : lsh.hash_tables.length = lsh.num_bands)
    (hnb : 1 ≤ lsh.num_bands)
    (hlen : lsh.num_bands * lsh.band_size ≤ m.digest.length) :
    ∃ lsh₂ res, lsh.insert bh k m = some lsh₂ ∧ lsh₂.query bh m = some res ∧
      k ∈ res ∧ res.Sorted (· < ·) := by
  have hb : ∀ j, j < lsh.hash_tables.length →
      (0 + j) * lsh.band_size + lsh.band_size ≤ m.digest.length := by
    intro j hj
    have hjnb : j < lsh.num_bands := by omega
    have hmul : (j + 1) * lsh.band_size ≤ lsh.num_bands * lsh.band_size :=
      Nat.mul_le_mul_right _ (by omega)
    have harith : (0 + j) * lsh.band_size + lsh.band_size = (j + 1) * lsh.band_size := by
      ring
    omega
  obtain ⟨ts₂, hins⟩ := Option.isSome_iff_exists.mp
    ((insertTables_isSome_iff bh m.digest lsh.band_size k lsh.hash_tables 0).2 hb)
  obtain ⟨hlents, hspec⟩ :=
    insertTables_spec bh m.digest lsh.band_size k lsh.hash_tables 0 ts₂ hins
  have hb₂ : ∀ j, j < ts₂.length →
      (0 + j) * lsh.band_size + lsh.band_size ≤ m.digest.length := by
    intro j hj
    exact hb j (by omega)
  obtain ⟨cs, hq⟩ := Option.isSome_iff_exists.mp
    ((queryTables_isSome_iff bh m.digest lsh.band_size ts₂ 0).2 hb₂)
  have h0len : 0 < lsh.hash_tables.length := by omega
  have hgetD := hspec 0 h0len
  simp only [Nat.add_zero] at hgetD
  obtain ⟨ks, hget, hkmem⟩ :=
    tableGet_tableInsert_self (lsh.hash_tables.getD 0 []) (bh (bandOf m.digest lsh.band_size 0)) k
  have hkcs : k ∈ cs :=
    queryTables_mem bh m.digest lsh.band_size ts₂ 0 cs hq 0 (by omega) ks
      (by rw [hgetD]; simpa using hget) k hkmem
  refine ⟨{ lsh with hash_tables := ts₂ }, dedupAdjacent (cs.insertionSort (· ≤ ·)),
    insert_eq lsh bh k m ts₂ hins, query_eq _ bh m cs hq, ?_, ?_⟩
  · refine (mem_dedupAdjacent _ k).2 ?_
    exact (List.perm_insertionSort (· ≤ ·) cs).mem_iff.2 hkcs
  · exact sorted_dedupAdjacent _ (List.sorted_insertionSort (· ≤ ·) cs)

/-- C3 witness at a concrete index (4 permutations, 2 bands). -/
theorem c3_witness :
    ∃ lsh₂ res,
      (RMinHashLSH.new (7 / 10) 4 2).insert (fun l => l.length) 5
        (RMinHash.new 4 (fun _ => (0, 0))) = some lsh₂ ∧
      lsh₂.query (fun l => l.length) (RMinHash.new 4 (fun _ => (0, 0))) = some res ∧
      5 ∈ res ∧ res.Sorted (· < ·) :=
  c3_insert_then_query_contains (fun l => l.length) (RMinHashLSH.new (7 / 10) 4 2) 5
    (RMinHash.new 4 (fun _ => (0, 0))) rfl (by decide) (by decide)

-- ### Claim C7

theorem getSlice_congr (d₁ d₂ : List Nat) (n s e : Nat) (he : e ≤ n)
    (h : d₁.take n = d₂.take n) : getSlice d₁ s e = getSlice d₂ s e := by
  have hlen : min n d₁.length = min n d₂.length := by
    have h₂ := congrArg List.length h
    simpa using h₂
  unfold getSlice
  by_cases hc : s ≤ e ∧ e ≤ d₁.length
  · have hc₂ : s ≤ e ∧ e ≤ d₂.length := ⟨hc.1, by omega⟩
    have key : ∀ (d : List Nat), (d.drop s).take (e - s) = ((d.take n).take e).drop s := by
      intro d
      rw [List.take_take, min_eq_left he, List.take_drop]
      congr 2
      omega
    rw [if_pos hc, if_pos hc₂, key d₁, key d₂, h]
  · have hc₂ : ¬(s ≤ e ∧ e ≤ d₂.length) := by
      intro hcc
      exact hc ⟨hcc.1, by omega⟩
    rw [if_neg hc, if_neg hc₂]

theorem anyMatchesTables_congr (bh : List Nat → Nat) (d₁ d₂ : List Nat) (bs n : Nat)
    (h : d₁.take n = d₂.take n) :
    ∀ (ts : List BandTable) (i : Nat), (i + ts.length) * bs ≤ n →
      anyMatchesTables bh d₁ bs i ts = anyMatchesTables bh d₂ bs i ts := by
  intro ts
  induction ts with
  | nil => intro i _; rfl
  | cons t rest ih =>
    intro i hbound
    have he : i * bs + bs ≤ n := by
      have hmul : (i + 1) * bs ≤ (i + (rest.length + 1)) * bs :=
        Nat.mul_le_mul_right _ (by omega)
      have harith : (i + 1) * bs = i * bs + bs := by ring
      have hlen₂ : (i + (t :: rest).length) * bs = (i + (rest.length + 1)) * bs := by
        simp
      omega
    have hsl := getSlice_congr d₁ d₂ n (i * bs) (i * bs + bs) he h
    cases hslice : getSlice d₂ (i * bs) (i * bs + bs) with
    | none =>
      have h₁ : getSlice d₁ (i * bs) (i * bs + bs) = none := by rw [hsl, hslice]
      simp [anyMatchesTables, h₁, hslice]
    | some band =>
      have h₁ : getSlice d₁ (i * bs) (i * bs + bs) = some band := by rw [hsl, hslice]
      cases hget : tableGet t (bh band) with
      | some ks => simp [anyMatchesTables, h₁, hslice, hget]
      | none =>
        have hrec := ih (i + 1) (by
          have hlen₂ : i + (t :: rest).length = i + 1 + rest.length := by
            simp only [List.length_cons]
            omega
          rw [hlen₂] at hbound
          exact hbound)
        simp [anyMatchesTables, h₁, hslice, hget, hrec]

theorem insertTables_congr (bh : List Nat → Nat) (d₁ d₂ : List Nat) (bs key n : Nat)
    (h : d₁.take n = d₂.take n) :
    ∀ (ts : List BandTable) (i : Nat), (i + ts.length) * bs ≤ n →
      insertTables bh d₁ bs key i ts = insertTables bh d₂ bs key i ts := by
  intro ts
  induction ts with
  | nil => intro i _; rfl
  | cons t rest ih =>
    intro i hbound
    have he : i * bs + bs ≤ n := by
      have hmul : (i + 1) * bs ≤ (i + (rest.length + 1)) * bs :=
        Nat.mul_le_mul_right _ (by omega)
      have harith : (i + 1) * bs = i * bs + bs := by ring
      have hlen₂ : (i + (t :: rest).length) * bs = (i + (rest.length + 1)) * bs := by
        simp
      omega
    have hsl := getSlice_congr d₁ d₂ n (i * bs) (i * bs + bs) he h
    have hrec := ih (i + 1) (by
      have hlen₂ : i + (t :: rest).length = i + 1 + rest.length := by
        simp only [List.length_cons]
        omega
      rw [hlen₂] at hbound
      exact hbound)
    cases hslice : getSlice d₂ (i * bs) (i * bs + bs) with
    | none =>
      have h₁ : getSlice d₁ (i * bs) (i * bs + bs) = none := by rw [hsl, hslice]
      simp [insertTables, h₁, hslice]
    | some band =>
      have h₁ : getSlice d₁ (i * bs) (i * bs + bs) = some band := by rw [hsl, hslice]
      simp [insertTables, h₁, hslice, hrec]

theorem queryTables_congr (bh : List Nat → Nat) (d₁ d₂ : List Nat) (bs n : Nat)
    (h : d₁.take n = d₂.take n) :
    ∀ (ts : List BandTable) (i : Nat), (i + ts.length) * bs ≤ n →
      queryTables bh d₁ bs i ts = queryTables bh d₂ bs i ts := by
  intro ts
  induction ts with
  | nil => intro i _; rfl
  | cons t rest ih =>
    intro i hbound
    have he : i * bs + bs ≤ n := by
      have hmul : (i + 1) * bs ≤ (i + (rest.length + 1)) * bs :=
        Nat.mul_le_mul_right _ (by omega)
      have harith : (i + 1) * bs = i * bs + bs := by ring
      have hlen₂ : (i + (t :: rest).length) * bs = (i + (rest.length + 1)) * bs := by
        simp
      omega
    have hsl := getSlice_congr d₁ d₂ n (i * bs) (i * bs + bs) he h
    have hrec := ih (i + 1) (by
      have hlen₂ : i + (t :: rest).length = i + 1 + rest.length := by
        simp only [List.length_cons]
        omega
      rw [hlen₂] at hbound
      exact hbound)
    cases hslice : getSlice d₂ (i * bs) (i * bs + bs) with
    | none =>
      have h₁ : getSlice d₁ (i * bs) (i * bs + bs) = none := by rw [hsl, hslice]
      simp [queryTables, h₁, hslice]
    | some band =>
      have h₁ : getSlice d₁ (i * bs) (i * bs + bs) = some band := by rw [hsl, hslice]
      simp [queryTables, h₁, hslice, hrec]

/-- C7: the trailing `P mod num_bands` signature slots are never consulted:
for any two signatures agreeing on the first `num_bands * band_size` slots,
`insert`, `query` and `any_matches` behave identically. -/
theorem c7_trailing_slots_unused (bh : List Nat → Nat) (lsh : RMinHashLSH)
    (k : Nat) (m₁ m₂ : RMinHash)
    (hwf : lsh.hash_tables.length = lsh.num_bands)
    (htake : m₁.digest.take (lsh.num_bands * lsh.band_size) =
      m₂.digest.take (lsh.num_bands * lsh.band_size)) :
    lsh.insert bh k m₁ = lsh.insert bh k m₂ ∧
    lsh.query bh m₁ = lsh.query bh m₂ ∧
    lsh.any_matches bh m₁ = lsh.any_matches bh m₂ := by
  have hbound : (0 + lsh.hash_tables.length) * lsh.band_size ≤
      lsh.num_bands * lsh.band_size := by
    rw [hwf, Nat.zero_add]
  refine ⟨?_, ?_, ?_⟩
  · unfold RMinHashLSH.insert
    rw [insertTables_congr bh m₁.digest m₂.digest lsh.band_size k
      (lsh.num_bands * lsh.band_size) htake lsh.hash_tables 0 hbound]
  · unfold RMinHashLSH.query
    rw [queryTables_congr bh m₁.digest m₂.digest lsh.band_size
      (lsh.num_bands * lsh.band_size) htake lsh.hash_tables 0 hbound]
  · unfold RMinHashLSH.any_matches
    rw [anyMatchesTables_congr bh m₁.digest m₂.digest lsh.band_size
      (lsh.num_bands * lsh.band_size) htake lsh.hash_tables 0 hbound]

/-- C7 witness: two signatures differing only in the trailing slot (4 banded
slots out of 5) are treated identically. -/
theorem c7_witness :
    (RMinHashLSH.new (7 / 10) 5 2).insert (fun l => l.length) 3
        (RMinHash.mk 5 [1, 2, 3, 4, 10] []) =
      (RMinHashLSH.new (7 / 10) 5 2).insert (fun l => l.length) 3
        (RMinHash.mk 5 [1, 2, 3, 4, 20] []) ∧
    (RMinHashLSH.new (7 / 10) 5 2).query (fun l => l.length)
        (RMinHash.mk 5 [1, 2, 3, 4, 10] []) =
      (RMinHashLSH.new (7 / 10) 5 2).query (fun l => l.length)
        (RMinHash.mk 5 [1, 2, 3, 4, 20] []) ∧
    (RMinHashLSH.new (7 / 10) 5 2).any_matches (fun l => l.length)
        (RMinHash.mk 5 [1, 2, 3, 4, 10] []) =
      (RMinHashLSH.new (7 / 10) 5 2).any_matches (fun l => l.length)
        (RMinHash.mk 5 [1, 2, 3, 4, 20] []) :=
  c7_trailing_slots_unused (fun l => l.length) (RMinHashLSH.new (7 / 10) 5 2) 3
    (RMinHash.mk 5 [1, 2, 3, 4, 10] []) (RMinHash.mk 5 [1, 2, 3, 4, 20] []) rfl (by decide)

-- ### Claim C9

/-- C9: the stored `threshold` has no influence on the accept/reject path:
two indexes equal except for `threshold` give identical `any_matches` and
`query` results and identical post-insert tables on all inputs; in
particular the accept/reject decision (driven by `any_matches` alone) is
independent of `threshold`. -/
theorem c9_threshold_no_influence (bh : List Nat → Nat) (lsh : RMinHashLSH) (t₂ : ℚ)
    (k : Nat) (m : RMinHash) :
    ({ lsh with threshold := t₂ } : RMinHashLSH).any_matches bh m = lsh.any_matches bh m ∧
    ({ lsh with threshold := t₂ } : RMinHashLSH).query bh m = lsh.query bh m ∧
    (({ lsh with threshold := t₂ } : RMinHashLSH).insert bh k m).map RMinHashLSH.hash_tables =
      (lsh.insert bh k m).map RMinHashLSH.hash_tables := by
  refine ⟨rfl, rfl, ?_⟩
  unfold RMinHashLSH.insert
  cases hins : insertTables bh m.digest lsh.band_size k 0 lsh.hash_tables with
  | none => rfl
  | some ts => rfl

-- ### Claim C10

/-- C10: whenever the signature covers all bands
(`num_bands * band_size ≤ digest length`, which holds when index and
signature share `num_perm`), every band slice of `insert`, `query` and
`any_matches` is in bounds and none of them panics (the `Option` error
branch is unreachable); with a shorter signature the slice indexing fails:
`insert` and `query` reach the out-of-bounds band and panic, and
`any_matches` either panics or has already short-circuited on a matching
earlier band. -/
theorem c10_band_slices_in_bounds (bh : List Nat → Nat) (lsh : RMinHashLSH) (k : Nat)
    (m : RMinHash) (hwf : lsh.hash_tables.length = lsh.num_bands) :
    (lsh.num_bands * lsh.band_size ≤ m.digest.length →
      (lsh.insert bh k m).isSome ∧ (lsh.query bh m).isSome ∧
        (lsh.any_matches bh m).isSome)
    ∧ (m.digest.length < lsh.num_bands * lsh.band_size → 1 ≤ lsh.num_bands →
      lsh.insert bh k m = none ∧ lsh.query bh m = none ∧
        (lsh.any_matches bh m = none ∨ ∃ ks, lsh.any_matches bh m = some (some ks))) := by
  constructor
  · intro hcov
    have hb : ∀ j, j < lsh.hash_tables.length →
        (0 + j) * lsh.band_size + lsh.band_size ≤ m.digest.length := by
      intro j hj
      have hjnb : j < lsh.num_bands := by omega
      have hmul : (j + 1) * lsh.band_size ≤ lsh.num_bands * lsh.band_size :=
        Nat.mul_le_mul_right _ (by omega)
      have harith : (0 + j) * lsh.band_size + lsh.band_size = (j + 1) * lsh.band_size := by
        ring
      omega
    refine ⟨?_, ?_, ?_⟩
    · obtain ⟨ts₂, hins⟩ := Option.isSome_iff_exists.mp
        ((insertTables_isSome_iff bh m.digest lsh.band_size k lsh.hash_tables 0).2 hb)
      rw [insert_eq lsh bh k m ts₂ hins]
      rfl
    · obtain ⟨cs, hq⟩ := Option.isSome_iff_exists.mp
        ((queryTables_isSome_iff bh m.digest lsh.band_size lsh.hash_tables 0).2 hb)
      rw [query_eq lsh bh m cs hq]
      rfl
    · exact anyMatchesTables_isSome bh m.digest lsh.band_size lsh.hash_tables 0 hb
  · intro hshort hnb
    have hfail : ¬ ∀ j, j < lsh.hash_tables.length →
        (0 + j) * lsh.band_size + lsh.band_size ≤ m.digest.length := by
      intro hall
      have hlast := hall (lsh.num_bands - 1) (by omega)
      have hsucc : lsh.num_bands - 1 + 1 = lsh.num_bands := by omega
      have harith : (0 + (lsh.num_bands - 1)) * lsh.band_size + lsh.band_size =
          (lsh.num_bands - 1 + 1) * lsh.band_size := by ring
      rw [hsucc] at harith
      omega
    refine ⟨?_, ?_, ?_⟩
    · have hnone : insertTables bh m.digest lsh.band_size k 0 lsh.hash_tables = none := by
        cases hc : insertTables bh m.digest lsh.band_size k 0 lsh.hash_tables with
        | none => rfl
        | some ts =>
          exact absurd ((insertTables_isSome_iff bh m.digest lsh.band_size k
            lsh.hash_tables 0).1 (by rw [hc]; rfl)) hfail
      unfold RMinHashLSH.insert
      rw [hnone]
    · have hnone : queryTables bh m.digest lsh.band_size 0 lsh.hash_tables = none := by
        cases hc : queryTables bh m.digest lsh.band_size 0 lsh.hash_tables with
        | none => rfl
        | some cs =>
          exact absurd ((queryTables_isSome_iff bh m.digest lsh.band_size
            lsh.hash_tables 0).1 (by rw [hc]; rfl)) hfail
      unfold RMinHashLSH.query
      rw [hnone]
    · cases hc : lsh.any_matches bh m with
      | none => exact Or.inl rfl
      | some r =>
        cases r with
        | some ks => exact Or.inr ⟨ks, rfl⟩
        | none =>
          exfalso
          have h₂ := (anyMatchesTables_none_iff bh m.digest lsh.band_size
            lsh.hash_tables 0).1 hc
          exact hfail (fun j hj => (h₂ j hj).1)

/-- C10 witness: with matching `num_perm` (4 slots, 2 bands of size 2) no
operation panics. -/
theorem c10_witness :
    ((RMinHashLSH.new (7 / 10) 4 2).insert (fun l => l.length) 0
        (RMinHash.new 4 (fun _ => (0, 0)))).isSome ∧
    ((RMinHashLSH.new (7 / 10) 4 2).query (fun l => l.length)
        (RMinHash.new 4 (fun _ => (0, 0)))).isSome ∧
    ((RMinHashLSH.new (7 / 10) 4 2).any_matches (fun l => l.length)
        (RMinHash.new 4 (fun _ => (0, 0)))).isSome :=
  (c10_band_slices_in_bounds (fun l => l.length) (RMinHashLSH.new (7 / 10) 4 2) 0
    (RMinHash.new 4 (fun _ => (0, 0))) rfl).1 (by decide)

-- ### Coordinator run lemmas (claims C1 and C8)

theorem dedupRun_cons (bh : List Nat → Nat) (st : DedupState) (m : RMinHash)
    (ms : List RMinHash) :
    dedupRun bh st (m :: ms) =
      match st.lsh.any_matches bh m with
      | none => none
      | some (some _) => dedupRun bh st ms
      | some none =>
        match st.lsh.insert bh st.accepted m with
        | none => none
        | some lsh₂ =>
          match dedupRun bh ⟨lsh₂, st.accepted + 1⟩ ms with
          | none => none
          | some (st₂, tr) => some (st₂, (st.accepted, m, st.lsh) :: tr) := rfl

theorem insert_inv (lsh : RMinHashLSH) (bh : List Nat → Nat) (k : Nat) (m : RMinHash)
    (lsh₂ : RMinHashLSH) (hins : lsh.insert bh k m = some lsh₂) :
    ∃ ts₂, insertTables bh m.digest lsh.band_size k 0 lsh.hash_tables = some ts₂ ∧
      lsh₂ = { lsh with hash_tables := ts₂ } := by
  unfold RMinHashLSH.insert at hins
  cases hc : insertTables bh m.digest lsh.band_size k 0 lsh.hash_tables with
  | none => rw [hc] at hins; cases hins
  | some ts₂ =>
    rw [hc] at hins
    injection hins with h₂
    exact ⟨ts₂, rfl, h₂.symm⟩

theorem dedupRun_keys (bh : List Nat → Nat) :
    ∀ (ms : List RMinHash) (st₀ st : DedupState) (tr : List (Nat × RMinHash × RMinHashLSH)),
      dedupRun bh st₀ ms = some (st, tr) →
        st₀.accepted ≤ st.accepted ∧
          tr.map (fun e => e.1) = List.range' st₀.accepted (st.accepted - st₀.accepted) := by
  intro ms
  induction ms with
  | nil =>
    intro st₀ st tr hrun
    rw [show dedupRun bh st₀ [] = some (st₀, []) from rfl] at hrun
    injection hrun with h₂
    cases h₂
    simp [List.range']
  | cons m ms ih =>
    intro st₀ st tr hrun
    rw [dedupRun_cons] at hrun
    cases hany : st₀.lsh.any_matches bh m with
    | none => rw [hany] at hrun; cases hrun
    | some r =>
      rw [hany] at hrun
      cases r with
      | some ks => exact ih st₀ st tr hrun
      | none =>
        cases hins : st₀.lsh.insert bh st₀.accepted m with
        | none => rw [hins] at hrun; cases hrun
        | some lsh₂ =>
          rw [hins] at hrun
          dsimp only at hrun
          cases hrec : dedupRun bh ⟨lsh₂, st₀.accepted + 1⟩ ms with
          | none => rw [hrec] at hrun; cases hrun
          | some p =>
            rw [hrec] at hrun
            cases p with
            | mk st₂ tr₂ =>
              dsimp only at hrun
              injection hrun with h₂
              rw [Prod.mk.injEq] at h₂
              obtain ⟨h₃, h₄⟩ := h₂
              subst h₃
              subst h₄
              obtain ⟨hle, hmap⟩ := ih ⟨lsh₂, st₀.accepted + 1⟩ st₂ tr₂ hrec
              have hle₂ : st₀.accepted + 1 ≤ st₂.accepted := hle
              have hmap₂ : tr₂.map (fun e => e.1) =
                  List.range' (st₀.accepted + 1) (st₂.accepted - (st₀.accepted + 1)) := hmap
              constructor
              · omega
              · simp only [List.map_cons]
                rw [hmap₂]
                have harith : st₂.accepted - st₀.accepted =
                    (st₂.accepted - (st₀.accepted + 1)) + 1 := by omega
                rw [harith, List.range'_succ]

theorem dedupRun_checked (bh : List Nat → Nat) :
    ∀ (ms : List RMinHash) (st₀ st : DedupState) (tr : List (Nat × RMinHash × RMinHashLSH)),
      dedupRun bh st₀ ms = some (st, tr) →
        ∀ e ∈ tr, RMinHashLSH.any_matches e.2.2 bh e.2.1 = some none := by
  intro ms
  induction ms with
  | nil =>
    intro st₀ st tr hrun e he
    rw [show dedupRun bh st₀ [] = some (st₀, []) from rfl] at hrun
    injection hrun with h₂
    cases h₂
    cases he
  | cons m ms ih =>
    intro st₀ st tr hrun e he
    rw [dedupRun_cons] at hrun
    cases hany : st₀.lsh.any_matches bh m with
    | none => rw [hany] at hrun; cases hrun
    | some r =>
      rw [hany] at hrun
      cases r with
      | some ks => exact ih st₀ st tr hrun e he
      | none =>
        cases hins : st₀.lsh.insert bh st₀.accepted m with
        | none => rw [hins] at hrun; cases hrun
        | some lsh₂ =>
          rw [hins] at hrun
          dsimp only at hrun
          cases hrec : dedupRun bh ⟨lsh₂, st₀.accepted + 1⟩ ms with
          | none => rw [hrec] at hrun; cases hrun
          | some p =>
            rw [hrec] at hrun
            cases p with
            | mk st₂ tr₂ =>
              dsimp only at hrun
              injection hrun with h₂
              rw [Prod.mk.injEq] at h₂
              obtain ⟨h₃, h₄⟩ := h₂
              subst h₃
              subst h₄
              rcases List.mem_cons.mp he with hhead | htail
              · subst hhead
                exact hany
              · exact ih ⟨lsh₂, st₀.accepted + 1⟩ st₂ tr₂ hrec e htail

theorem dedupRun_no_collision (bh : List Nat → Nat) :
    ∀ (ms : List RMinHash) (st₀ st : DedupState)
      (tr : List (Nat × RMinHash × RMinHashLSH)) (i h₀ : Nat),
      dedupRun bh st₀ ms = some (st, tr) →
      i < st₀.lsh.hash_tables.length →
      (tableGet (st₀.lsh.hash_tables.getD i []) h₀).isSome →
      ∀ e ∈ tr, bh (bandOf e.2.1.digest st₀.lsh.band_size i) ≠ h₀ := by
  intro ms
  induction ms with
  | nil =>
    intro st₀ st tr i h₀ hrun _ _ e he
    rw [show dedupRun bh st₀ [] = some (st₀, []) from rfl] at hrun
    injection hrun with h₂
    rw [Prod.mk.injEq] at h₂
    obtain ⟨h₃, h₄⟩ := h₂
    subst h₄
    cases he
  | cons m ms ih =>
    intro st₀ st tr i h₀ hrun hi hpres e he
    rw [dedupRun_cons] at hrun
    cases hany : st₀.lsh.any_matches bh m with
    | none => rw [hany] at hrun; cases hrun
    | some r =>
      rw [hany] at hrun
      cases r with
      | some ks => exact ih st₀ st tr i h₀ hrun hi hpres e he
      | none =>
        cases hins : st₀.lsh.insert bh st₀.accepted m with
        | none => rw [hins] at hrun; cases hrun
        | some lsh₂ =>
          rw [hins] at hrun
          dsimp only at hrun
          cases hrec : dedupRun bh ⟨lsh₂, st₀.accepted + 1⟩ ms with
          | none => rw [hrec] at hrun; cases hrun
          | some p =>
            rw [hrec] at hrun
            cases p with
            | mk st₂ tr₂ =>
              dsimp only at hrun
              injection hrun with h₂
              rw [Prod.mk.injEq] at h₂
              obtain ⟨h₃, h₄⟩ := h₂
              subst h₃
              subst h₄
              obtain ⟨ts₂, hins₂, hlsh₂⟩ :=
                insert_inv st₀.lsh bh st₀.accepted m lsh₂ hins
              obtain ⟨hlents, hspec⟩ :=
                insertTables_spec bh m.digest st₀.lsh.band_size st₀.accepted
                  st₀.lsh.hash_tables 0 ts₂ hins₂
              rcases List.mem_cons.mp he with hhead | htail
              · subst hhead
                intro hcontra
                have hlook := ((anyMatchesTables_none_iff bh m.digest st₀.lsh.band_size
                  st₀.lsh.hash_tables 0).1 hany i hi).2
                simp only [Nat.zero_add] at hlook
                rw [hcontra] at hlook
                rw [hlook] at hpres
                cases hpres
              · subst hlsh₂
                have hgetD := hspec i hi
                simp only [Nat.zero_add] at hgetD
                have hpres₂ : (tableGet
                    (({ st₀.lsh with hash_tables := ts₂ } : RMinHashLSH).hash_tables.getD i [])
                    h₀).isSome := by
                  show (tableGet (ts₂.getD i []) h₀).isSome
                  rw [hgetD]
                  exact tableGet_tableInsert_isSome _ _ _ _ hpres
                have hi₂ : i <
                    ({ st₀.lsh with hash_tables := ts₂ } : RMinHashLSH).hash_tables.length := by
                  show i < ts₂.length
                  omega
                exact ih ⟨{ st₀.lsh with hash_tables := ts₂ }, st₀.accepted + 1⟩ st₂ tr₂ i h₀
                  hrec hi₂ hpres₂ e htail

theorem dedupRun_pairwise (bh : List Nat → Nat) :
    ∀ (ms : List RMinHash) (st₀ st : DedupState)
      (tr : List (Nat × RMinHash × RMinHashLSH)),
      dedupRun bh st₀ ms = some (st, tr) →
        tr.Pairwise (fun e₁ e₂ => ∀ i, i < st₀.lsh.hash_tables.length →
          bh (bandOf e₁.2.1.digest st₀.lsh.band_size i) ≠
            bh (bandOf e₂.2.1.digest st₀.lsh.band_size i)) := by
  intro ms
  induction ms with
  | nil =>
    intro st₀ st tr hrun
    rw [show dedupRun bh st₀ [] = some (st₀, []) from rfl] at hrun
    injection hrun with h₂
    rw [Prod.mk.injEq] at h₂
    obtain ⟨h₃, h₄⟩ := h₂
    subst h₄
    exact List.Pairwise.nil
  | cons m ms ih =>
    intro st₀ st tr hrun
    rw [dedupRun_cons] at hrun
    cases hany : st₀.lsh.any_matches bh m with
    | none => rw [hany] at hrun; cases hrun
    | some r =>
      rw [hany] at hrun
      cases r with
      | some ks => exact ih st₀ st tr hrun
      | none =>
        cases hins : st₀.lsh.insert bh st₀.accepted m with
        | none => rw [hins] at hrun; cases hrun
        | some lsh₂ =>
          rw [hins] at hrun
          dsimp only at hrun
          cases hrec : dedupRun bh ⟨lsh₂, st₀.accepted + 1⟩ ms with
          | none => rw [hrec] at hrun; cases hrun
          | some p =>
            rw [hrec] at hrun
            cases p with
            | mk st₂ tr₂ =>
              dsimp only at hrun
              injection hrun with h₂
              rw [Prod.mk.injEq] at h₂
              obtain ⟨h₃, h₄⟩ := h₂
              subst h₃
              subst h₄
              obtain ⟨ts₂, hins₂, hlsh₂⟩ :=
                insert_inv st₀.lsh bh st₀.accepted m lsh₂ hins
              obtain ⟨hlents, hspec⟩ :=
                insertTables_spec bh m.digest st₀.lsh.band_size st₀.accepted
                  st₀.lsh.hash_tables 0 ts₂ hins₂
              subst hlsh₂
              refine List.Pairwise.cons ?_ ?_
              · intro e₂ he₂ i hi
                have hgetD := hspec i hi
                simp only [Nat.zero_add] at hgetD
                obtain ⟨ks₂, hget₂, _⟩ := tableGet_tableInsert_self
                  (st₀.lsh.hash_tables.getD i [])
                  (bh (bandOf m.digest st₀.lsh.band_size i)) st₀.accepted
                have hpres₂ : (tableGet
                    (({ st₀.lsh with hash_tables := ts₂ } : RMinHashLSH).hash_tables.getD i [])
                    (bh (bandOf m.digest st₀.lsh.band_size i))).isSome := by
                  show (tableGet (ts₂.getD i []) (bh (bandOf m.digest st₀.lsh.band_size i))).isSome
                  rw [hgetD, hget₂]
                  rfl
                have hi₂ : i <
                    ({ st₀.lsh with hash_tables := ts₂ } : RMinHashLSH).hash_tables.length := by
                  show i < ts₂.length
                  omega
                have hne := dedupRun_no_collision bh ms
                  ⟨{ st₀.lsh with hash_tables := ts₂ }, st₀.accepted + 1⟩ st₂ tr₂ i
                  (bh (bandOf m.digest st₀.lsh.band_size i)) hrec hi₂ hpres₂ e₂ he₂
                exact fun hcontra => hne (hcontra ▸ rfl)
              · have hpair := ih ⟨{ st₀.lsh with hash_tables := ts₂ }, st₀.accepted + 1⟩
                  st₂ tr₂ hrec
                refine hpair.imp ?_
                intro e₁ e₂ hR i hi
                refine hR i ?_
                show i < ts₂.length
                omega

-- ### Claims C1 and C8

/-- C1: in any run of the coordinator's step relation (each record's
`any_matches` check and conditional insert being one indivisible step,
as enforced by the write lock in main.rs), every accepted record's
`any_matches` check against the index state at its own insertion moment
returned no match, and no two accepted records have band-colliding
signatures on any band. -/
theorem c1_no_two_colliding_accepted (bh : List Nat → Nat) (lsh₀ : RMinHashLSH)
    (ms : List RMinHash) (st : DedupState) (tr : List (Nat × RMinHash × RMinHashLSH))
    (hwf : lsh₀.hash_tables.length = lsh₀.num_bands)
    (hrun : dedupRun bh ⟨lsh₀, 0⟩ ms = some (st, tr)) :
    (∀ e ∈ tr, RMinHashLSH.any_matches e.2.2 bh e.2.1 = some none)
    ∧ tr.Pairwise (fun e₁ e₂ => ∀ i, i < lsh₀.num_bands →
        bh (bandOf e₁.2.1.digest lsh₀.band_size i) ≠
          bh (bandOf e₂.2.1.digest lsh₀.band_size i)) := by
  refine ⟨dedupRun_checked bh ms ⟨lsh₀, 0⟩ st tr hrun, ?_⟩
  have hp := dedupRun_pairwise bh ms ⟨lsh₀, 0⟩ st tr hrun
  refine hp.imp ?_
  intro e₁ e₂ hR i hi
  refine hR i ?_
  show i < lsh₀.hash_tables.length
  omega

/-- C1 witness: a one-record run on a fresh scaled-down index. -/
theorem c1_witness :
    (∀ e ∈ ([(0, RMinHash.new 4 (fun _ => (0, 0)), RMinHashLSH.new (7 / 10) 4 2)] :
        List (Nat × RMinHash × RMinHashLSH)),
      RMinHashLSH.any_matches e.2.2 (fun l => l.length) e.2.1 = some none)
    ∧ ([(0, RMinHash.new 4 (fun _ => (0, 0)), RMinHashLSH.new (7 / 10) 4 2)] :
        List (Nat × RMinHash × RMinHashLSH)).Pairwise (fun e₁ e₂ => ∀ i,
          i < (RMinHashLSH.new (7 / 10) 4 2).num_bands →
          (fun l => l.length)
              (bandOf e₁.2.1.digest (RMinHashLSH.new (7 / 10) 4 2).band_size i) ≠
            (fun l => l.length)
              (bandOf e₂.2.1.digest (RMinHashLSH.new (7 / 10) 4 2).band_size i)) :=
  c1_no_two_colliding_accepted (fun l => l.length) (RMinHashLSH.new (7 / 10) 4 2)
    [RMinHash.new 4 (fun _ => (0, 0))]
    ⟨RMinHashLSH.mk (7 / 10) 4 2 2 [[(2, [0])], [(2, [0])]], 1⟩
    [(0, RMinHash.new 4 (fun _ => (0, 0)), RMinHashLSH.new (7 / 10) 4 2)] rfl (by rfl)

/-- C8: each accepted record's key is the value of the acceptance counter at
its own atomic accept step; over any run that starts with counter 0, the
keys handed to `insert`, in acceptance order, are exactly
`0, 1, …, accepted_count - 1` — gap-free and non-repeating. -/
theorem c8_keys_gap_free (bh : List Nat → Nat) (lsh₀ : RMinHashLSH) (ms : List RMinHash)
    (st : DedupState) (tr : List (Nat × RMinHash × RMinHashLSH))
    (hrun : dedupRun bh ⟨lsh₀, 0⟩ ms = some (st, tr)) :
    tr.map (fun e => e.1) = List.range st.accepted := by
  obtain ⟨_, hmap⟩ := dedupRun_keys bh ms ⟨lsh₀, 0⟩ st tr hrun
  rw [List.range_eq_range']
  simpa using hmap

/-- C8 witness: the one-record run accepts with key 0 and the key list is
`range 1 = [0]`. -/
theorem c8_witness :
    ([(0, RMinHash.new 4 (fun _ => (0, 0)), RMinHashLSH.new (7 / 10) 4 2)] :
        List (Nat × RMinHash × RMinHashLSH)).map (fun e => e.1) =
      List.range
        ((⟨RMinHashLSH.mk (7 / 10) 4 2 2 [[(2, [0])], [(2, [0])]], 1⟩ : DedupState).accepted) :=
  c8_keys_gap_free (fun l => l.length) (RMinHashLSH.new (7 / 10) 4 2)
    [RMinHash.new 4 (fun _ => (0, 0))]
    ⟨RMinHashLSH.mk (7 / 10) 4 2 2 [[(2, [0])], [(2, [0])]], 1⟩
    [(0, RMinHash.new 4 (fun _ => (0, 0)), RMinHashLSH.new (7 / 10) 4 2)] (by rfl)
